import Mathlib

/-!
Verification development for the libretro-based tasbot engine
(emulator frontend, state cache, compressed state I/O, playfun search loop).

The definitions below are shallow embeddings of the C++ sources:
  - `StateCache` and its operations embed the struct `StateCache` of
    `tasbot/emulator-libretro.cc` (the `unordered_map` is embedded as an
    association list with a key-uniqueness invariant; `emplace` therefore
    inserts only when the key is absent, exactly as in the source).
  - `Emu` and the `EmulatorLibretro` operations embed the frontend: the
    wrapper is `none` when no core/ROM is initialized, and a loaded
    machine is identified with its serialized state (a byte list), since
    every interaction of the embedded code with the machine goes through
    `SaveUncompressed`/`LoadUncompressed`/`Step`.
  - Machine bytes are `ZMod 256`, so 8-bit wrapping arithmetic is the
    ring arithmetic of the type.
  - External components (the core's `Step`, the RAM accessor, zlib's
    `compress2`/`uncompress`, CityHash, the learned objectives and the
    motif random stream) are parameters of the embedding.
-/

set_option maxHeartbeats 1000000

/-- A machine byte: 8-bit with wrapping arithmetic. -/
abbrev Byte := ZMod 256

/-- One cache entry: key is `(input, pre)`, value is `(seq, post)`.
Embeds `StateCache::Key`/`StateCache::Value` of `emulator-libretro.cc`. -/
structure CacheEntry where
  input : Byte
  pre : List Byte
  seq : Nat
  post : List Byte
deriving DecidableEq

/-- Key equality of `StateCache::KeyEquals`: same input byte and
byte-for-byte equal pre-state. -/
def keyMatches (input : Byte) (start : List Byte) (e : CacheEntry) : Bool :=
  decide (e.input = input ∧ e.pre = start)

/-- The state cache of `emulator-libretro.cc` (struct `StateCache`).
The `unordered_map` is embedded as a list of entries. -/
structure StateCache where
  table : List CacheEntry
  limit : Nat
  count : Nat
  next_seq : Nat
  slop : Nat
  hits : Nat
  misses : Nat
deriving DecidableEq

namespace StateCache

/-- The freshly constructed cache (member initializers of `StateCache`). -/
def init : StateCache :=
  { table := [], limit := 0, count := 0, next_seq := 0,
    slop := 10000, hits := 0, misses := 0 }

/-- `StateCache::Resize`: drop all entries, set limit and slop, reset
`next_seq` and `count` to zero. -/
def Resize (c : StateCache) (ll ss : Nat) : StateCache :=
  { c with table := [], limit := ll, slop := ss, next_seq := 0, count := 0 }

/-- The eviction cutoff `min_seq` of `StateCache::MaybeGC`: sort the
sequence numbers ascending (`std::sort` on `seqs`) and read the entry at
index `num_remove = count - limit`.  The source indexes
`seqs[count - limit]` without a bounds check; the embedding reads `0`
out of range (the theorems below assume `0 < limit`, which keeps the
index in range whenever the eviction branch is taken). -/
def gcMinSeq (c : StateCache) : Nat :=
  ((c.table.map CacheEntry.seq).mergeSort (fun a b => decide (a ≤ b))).getD
    (c.count - c.limit) 0

/-- `StateCache::MaybeGC`: when `count > limit + slop`, remove every
entry whose sequence number is below the cutoff `gcMinSeq`, decrementing
`count` per removal. -/
def MaybeGC (c : StateCache) : StateCache :=
  if c.count ≤ c.limit + c.slop then c
  else
    { c with
      table := c.table.filter (fun e => ! decide (e.seq < gcMinSeq c)),
      count := c.count - (c.table.filter (fun e => decide (e.seq < gcMinSeq c))).length }

/-- `StateCache::Remember`: `emplace` a copy of the key and result with
stamp `next_seq++` (the stamp is taken and incremented even when the
`emplace` finds the key already present and inserts nothing), increment
`count` unconditionally, then run `MaybeGC`. -/
def Remember (c : StateCache) (input : Byte) (start result : List Byte) : StateCache :=
  let table' :=
    if (c.table.find? (keyMatches input start)).isSome then c.table
    else c.table ++ [⟨input, start, c.next_seq, result⟩]
  MaybeGC { c with table := table', next_seq := c.next_seq + 1, count := c.count + 1 }

/-- `StateCache::GetKnown`: look the key up; on a miss count a miss and
return nothing; on a hit count a hit, bump the found entry's sequence
number to `next_seq++`, and return the stored post-state. -/
def GetKnown (c : StateCache) (input : Byte) (start : List Byte) :
    Option (List Byte) × StateCache :=
  match c.table.find? (keyMatches input start) with
  | none => (none, { c with misses := c.misses + 1 })
  | some e =>
      (some e.post,
       { c with
         hits := c.hits + 1,
         next_seq := c.next_seq + 1,
         table := c.table.map (fun e2 =>
           if keyMatches input start e2 then { e2 with seq := c.next_seq } else e2) })

end StateCache

/-- The process-wide frontend state of `emulator-libretro.cc`:
`g_wrapper` (`none` when no core/ROM is loaded; a loaded machine is
identified with its serialized state) and `g_cache`. -/
structure Emu where
  wrapper : Option (List Byte)
  cache : Option StateCache
deriving DecidableEq

namespace EmulatorLibretro

section Frontend

-- `step` is the external core's one-frame advance on serialized states
-- (`SetInput` + `retro_run`); `getMem` is the external RAM accessor.
variable (step : Byte → List Byte → List Byte) (getMem : List Byte → List Byte)

/-- `EmulatorLibretro::Step`: no-op without a wrapper, else advance the
machine one frame with the given input byte. -/
def Step (input : Byte) (e : Emu) : Emu :=
  match e.wrapper with
  | none => e
  | some w => { e with wrapper := some (step input w) }

/-- `EmulatorLibretro::StepFull`: same as `Step` (the callbacks capture
video and audio unconditionally). -/
def StepFull (input : Byte) (e : Emu) : Emu :=
  Step step input e

/-- `EmulatorLibretro::GetMemory`: clear the output without a wrapper,
else copy the system RAM. -/
def GetMemory (e : Emu) : List Byte :=
  match e.wrapper with
  | none => []
  | some w => getMem w

/-- `EmulatorLibretro::SaveUncompressed`: clear the output without a
wrapper, else the serialized state. -/
def SaveUncompressed (e : Emu) : List Byte :=
  match e.wrapper with
  | none => []
  | some w => w

/-- `EmulatorLibretro::LoadUncompressed`: no-op without a wrapper or on an
empty input, else replace the machine state. -/
def LoadUncompressed (inp : List Byte) (e : Emu) : Emu :=
  match e.wrapper with
  | none => e
  | some _ => if inp = [] then e else { e with wrapper := some inp }

/-- `EmulatorLibretro::RamChecksum` (`cityHash` embeds CityHash64):
zero without a wrapper, zero on empty RAM, else the hash of the RAM. -/
def RamChecksum (cityHash : List Byte → Nat) (e : Emu) : Nat :=
  match e.wrapper with
  | none => 0
  | some w => if getMem w = [] then 0 else cityHash (getMem w)

/-- `EmulatorLibretro::ResetCache`: resize the cache when one exists. -/
def ResetCache (numstates slop : Nat) (e : Emu) : Emu :=
  match e.cache with
  | none => e
  | some c => { e with cache := some (c.Resize numstates slop) }

/-- `EmulatorLibretro::CachingStep`: without a cache fall back to `Step`;
otherwise save the pre-state, look it up, and either load the cached
post-state or step, save, and remember the result. -/
def CachingStep (input : Byte) (e : Emu) : Emu :=
  match e.cache with
  | none => Step step input e
  | some c =>
      let start := SaveUncompressed e
      match c.GetKnown input start with
      | (some cached, c') => LoadUncompressed cached { e with cache := some c' }
      | (none, c') =>
          let e' := Step step input { e with cache := some c' }
          let result := SaveUncompressed e'
          { e' with cache := some (c'.Remember input start result) }

/-- A sequence of `CachingStep`s, in order. -/
def runCaching (inputs : List Byte) (e : Emu) : Emu :=
  inputs.foldl (fun acc b => CachingStep step b acc) e

/-- The reference semantics: a sequence of plain core advances. -/
def runStep (m : List Byte) (inputs : List Byte) : List Byte :=
  inputs.foldl (fun w b => step b w) m

end Frontend

/-- The basis-subtraction loop of `SaveEx`: for every index below
`min(|basis|, |raw|)`, replace `raw[i]` by the 8-bit wrapping difference
`raw[i] - basis[i]`; bytes past the shorter list are untouched. -/
def deltaSub : List Byte → List Byte → List Byte
  | raw, [] => raw
  | [], _ => []
  | r :: raw, b :: basis => (r - b) :: deltaSub raw basis

/-- The basis-addition loop of `LoadEx`: the 8-bit wrapping inverse of
`deltaSub` over the common prefix. -/
def deltaAdd : List Byte → List Byte → List Byte
  | raw, [] => raw
  | [], _ => []
  | r :: raw, b :: basis => (r + b) :: deltaAdd raw basis

/-- The 4-byte little-endian header holding the uncompressed size, as
written by the `uint32` store in `SaveEx` (truncating mod 2^32). -/
def le32 (n : Nat) : List Byte :=
  [(n : Byte), ((n / 256 : Nat) : Byte), ((n / 65536 : Nat) : Byte),
   ((n / 16777216 : Nat) : Byte)]

/-- Reading the 4-byte little-endian header back, as done by the
`uint32` load in `LoadEx`. -/
def readLe32 (l : List Byte) : Nat :=
  (l.getD 0 0).val + 256 * (l.getD 1 0).val + 65536 * (l.getD 2 0).val +
    16777216 * (l.getD 3 0).val

/-- `EmulatorLibretro::SaveEx` (`compressFn` embeds zlib `compress2`):
save the raw state, subtract the basis bytewise over the common prefix,
compress, and prepend the 4-byte little-endian uncompressed size. -/
def SaveEx (compressFn : List Byte → List Byte) (basis : Option (List Byte))
    (e : Emu) : List Byte :=
  let raw := SaveUncompressed e
  let raw' := match basis with
    | none => raw
    | some b => deltaSub raw b
  le32 raw.length ++ compressFn raw'

/-- The byte-level part of `EmulatorLibretro::LoadEx` (`uncompressFn`
embeds zlib `uncompress`, taking the payload and the capacity from the
header and returning the inflated bytes, or `none` on failure): `none`
both for the silent no-op on inputs shorter than 4 bytes and for the
decompression failure (which aborts the process in the source, so only
the success path is interpreted further). -/
def LoadExBytes (uncompressFn : List Byte → Nat → Option (List Byte))
    (basis : Option (List Byte)) (inp : List Byte) : Option (List Byte) :=
  if inp.length < 4 then none
  else
    (uncompressFn (inp.drop 4) (readLe32 (inp.take 4))).map (fun u =>
      match basis with
      | none => u
      | some b => deltaAdd u b)

/-- `EmulatorLibretro::LoadEx` at the machine level: on success feed the
recovered bytes to `LoadUncompressed`, otherwise leave the state alone. -/
def LoadEx (uncompressFn : List Byte → Nat → Option (List Byte))
    (basis : Option (List Byte)) (inp : List Byte) (e : Emu) : Emu :=
  match LoadExBytes uncompressFn basis inp with
  | none => e
  | some u => LoadUncompressed u e

/-- `EmulatorLibretro::Save`: `SaveEx` with no basis. -/
def Save (compressFn : List Byte → List Byte) (e : Emu) : List Byte :=
  SaveEx compressFn none e

/-- `EmulatorLibretro::Load`: `LoadEx` with no basis. -/
def Load (uncompressFn : List Byte → Nat → Option (List Byte))
    (inp : List Byte) (e : Emu) : Emu :=
  LoadEx uncompressFn none inp e

/-- `EmulatorLibretro::GetImage`: copy the cached canonical frame. -/
def GetImage (g : List Byte) : List Byte := g

end EmulatorLibretro

/-- The frame data handed to the video-refresh callback: reported width,
height, pitch and the raw XRGB8888 pixel bytes. -/
structure FrameBuffer where
  width : Nat
  height : Nat
  pitch : Nat
  data : List Byte
deriving DecidableEq

/-- One byte of the canonical 256x256 RGBA frame after the video callback
of `EmulatorLibretro::Initialize` ran on previous contents `g` and frame
`fb`: indices decompose as `idx = y*1024 + x*4 + c`; pixels inside the
reported window whose source bytes are in range are converted
BGRA-to-RGBA with full alpha, everything else keeps the old value (zero
where the resize padded). -/
def framePixel (g : List Byte) (fb : FrameBuffer) (idx : Nat) : Byte :=
  let y := idx / 1024
  let x := (idx % 1024) / 4
  let c := idx % 4
  let src := y * fb.pitch + x * 4
  if y < min fb.height 256 ∧ x < min fb.width 256 ∧ src + 3 < fb.data.length then
    if c = 0 then fb.data.getD (src + 2) 0
    else if c = 1 then fb.data.getD (src + 1) 0
    else if c = 2 then fb.data.getD src 0
    else 255
  else g.getD idx 0

/-- The video-refresh callback of `EmulatorLibretro::Initialize`: resize
the canonical frame to 262144 bytes (padding new bytes with zero) and
overwrite the in-window pixels from the frame buffer. -/
def applyVideo (g : List Byte) (fb : FrameBuffer) : List Byte :=
  List.ofFn (fun i : Fin 262144 => framePixel g fb i.val)

/-- The canonical frame (`g_frame_rgba`) after a sequence of
video-refresh callbacks, starting from the empty initial vector. -/
def frameAfter (fbs : List FrameBuffer) : List Byte :=
  fbs.foldl applyVideo []

/-- Every frame byte at a row at or beyond `h` or a column at or beyond
`w` (within the canonical 256x256 window) is zero. -/
def PadZero (w h : Nat) (g : List Byte) : Prop :=
  ∀ y x c, y < 256 → x < 256 → c < 4 → (h ≤ y ∨ w ≤ x) →
    g.getD (y * 1024 + x * 4 + c) 0 = 0

namespace PlayFun

section Search

variable (step : Byte → List Byte → List Byte) (getMem : List Byte → List Byte)
variable (scoreChange : List Byte → List Byte → ℚ)
variable (motifStream : Nat → List Byte)
variable (avoidDepths : Fin 2 → Nat) (seekDepths : Fin 3 → Nat)

/-- The fast-forward loop of the `PlayFun` constructor: step through the
input movie from the front, appending each stepped byte to the output
movie, and stop right after the first non-zero byte. -/
def fastForward : List Byte → Emu → Emu × List Byte
  | [], e => (e, [])
  | b :: rest, e =>
      let e' := EmulatorLibretro.Step step b e
      if b = 0 then
        let r := fastForward rest e'
        (r.1, b :: r.2)
      else (e', [b])

/-- The innermost loop of `PlayFun::AvoidBadFutures`: play one motif byte
by byte via `CachingStep`, scoring the memory after every step against
`base_memory`; the very first scored step (trial 0, depth 0, byte 0)
seeds the running value, every other one takes the minimum. -/
def avoidX (base_memory : List Byte) (izero dzero : Bool) :
    Nat → List Byte → Emu → ℚ → Emu × ℚ
  | _, [], e, total => (e, total)
  | x, b :: rest, e, total =>
      let e' := EmulatorLibretro.CachingStep step b e
      let mem := EmulatorLibretro.GetMemory getMem e'
      let sc := scoreChange base_memory mem
      let total' := if izero ∧ dzero ∧ x = 0 then sc else min total sc
      avoidX base_memory izero dzero (x + 1) rest e' total'

/-- The depth loop of `PlayFun::AvoidBadFutures`: draw the next
weighted-random motif from the stream and play it with `avoidX`. -/
def avoidD (base_memory : List Byte) (izero : Bool) :
    Nat → Nat → Emu → Nat → ℚ → Emu × Nat × ℚ
  | _, 0, e, rng, total => (e, rng, total)
  | d, k + 1, e, rng, total =>
      let m := motifStream rng
      let r := avoidX step getMem scoreChange base_memory izero (d == 0) 0 m e total
      avoidD base_memory izero (d + 1) k r.1 (rng + 1) r.2

/-- `PlayFun::AvoidBadFutures`: two rollout trials from the saved base
state, taking the minimum step score seen anywhere (`total` starts at 1
and is overwritten by the first scored step). -/
def AvoidBadFutures (base_memory : List Byte) (e : Emu) (rng : Nat) :
    ℚ × Emu × Nat :=
  let base_state := EmulatorLibretro.SaveUncompressed e
  let r0 := avoidD step getMem scoreChange motifStream base_memory true 0
    (avoidDepths 0) e rng 1
  let e1 := EmulatorLibretro.LoadUncompressed base_state r0.1
  let r1 := avoidD step getMem scoreChange motifStream base_memory false 0
    (avoidDepths 1) e1 r0.2.1 r0.2.2
  (r1.2.2, r1.1, r1.2.1)

/-- The depth loop of `PlayFun::SeekGoodFutures`: play `k` weighted-random
motifs via `CachingStep`, with no intermediate scoring. -/
def seekD : Nat → Emu → Nat → Emu × Nat
  | 0, e, rng => (e, rng)
  | k + 1, e, rng =>
      let m := motifStream rng
      let e' := m.foldl (fun acc b => EmulatorLibretro.CachingStep step b acc) e
      seekD k e' (rng + 1)

/-- `PlayFun::SeekGoodFutures`: three rollout trials from the saved base
state; only the final memory of each trial is scored against
`base_memory`, and the maximum of the three scores is returned (trial 0
overwrites the initial 1). -/
def SeekGoodFutures (base_memory : List Byte) (e : Emu) (rng : Nat) :
    ℚ × Emu × Nat :=
  let base_state := EmulatorLibretro.SaveUncompressed e
  let r0 := seekD step motifStream (seekDepths 0) e rng
  let t0 := scoreChange base_memory (EmulatorLibretro.GetMemory getMem r0.1)
  let e1 := EmulatorLibretro.LoadUncompressed base_state r0.1
  let r1 := seekD step motifStream (seekDepths 1) e1 r0.2
  let t1 := max t0 (scoreChange base_memory (EmulatorLibretro.GetMemory getMem r1.1))
  let e2 := EmulatorLibretro.LoadUncompressed base_state r1.1
  let r2 := seekD step motifStream (seekDepths 2) e2 r1.2
  let t2 := max t1 (scoreChange base_memory (EmulatorLibretro.GetMemory getMem r2.1))
  (t2, r2.1, r2.2)

/-- One candidate-motif evaluation of the `PlayFun::Greedy` frame loop,
translated from the source: restore the pre-frame state unless this is
the first trial, play the motif via `CachingStep`, snapshot the
post-motif memory and state, then compute
`immediate + AvoidBadFutures(new_memory) + SeekGoodFutures(new_memory)`,
restoring the post-motif state between the two future scores. -/
def evalCandidate (current_state current_memory : List Byte)
    (motif : List Byte) (firstTrial : Bool) (e : Emu) (rng : Nat) :
    ℚ × Emu × Nat :=
  let e0 := if firstTrial then e else EmulatorLibretro.LoadUncompressed current_state e
  let e1 := motif.foldl (fun acc b => EmulatorLibretro.CachingStep step b acc) e0
  let new_memory := EmulatorLibretro.GetMemory getMem e1
  let new_state := EmulatorLibretro.SaveUncompressed e1
  let immediate_score := scoreChange current_memory new_memory
  let ra := AvoidBadFutures step getMem scoreChange motifStream avoidDepths
    new_memory e1 rng
  let e3 := EmulatorLibretro.LoadUncompressed new_state ra.2.1
  let rs := SeekGoodFutures step getMem scoreChange motifStream seekDepths
    new_memory e3 ra.2.2
  (immediate_score + (ra.1 + rs.1), rs.2.1, rs.2.2)

/-- Modelled from the spec: the candidate-motif evaluation of section
4.5 with the scoring baseline of the two future scores made explicit as
a parameter `baseline` selecting between the pre-motif memory and the
post-motif memory; the spec's steps (e) and (g) choose the pre-motif
memory. -/
def evalCandidateBase (baseline : List Byte → List Byte → List Byte)
    (current_state current_memory : List Byte)
    (motif : List Byte) (firstTrial : Bool) (e : Emu) (rng : Nat) :
    ℚ × Emu × Nat :=
  let e0 := if firstTrial then e else EmulatorLibretro.LoadUncompressed current_state e
  let e1 := motif.foldl (fun acc b => EmulatorLibretro.CachingStep step b acc) e0
  let new_memory := EmulatorLibretro.GetMemory getMem e1
  let new_state := EmulatorLibretro.SaveUncompressed e1
  let immediate_score := scoreChange current_memory new_memory
  let ra := AvoidBadFutures step getMem scoreChange motifStream avoidDepths
    (baseline current_memory new_memory) e1 rng
  let e3 := EmulatorLibretro.LoadUncompressed new_state ra.2.1
  let rs := SeekGoodFutures step getMem scoreChange motifStream seekDepths
    (baseline current_memory new_memory) e3 ra.2.2
  (immediate_score + (ra.1 + rs.1), rs.2.1, rs.2.2)

end Search

end PlayFun

namespace StateCache

/-- Well-formedness of the embedded cache: `count` agrees with the table,
sequence numbers are distinct and below `next_seq`, and keys are unique
(the `unordered_map` invariant). -/
def WF (c : StateCache) : Prop :=
  c.count = c.table.length ∧
  (c.table.map CacheEntry.seq).Nodup ∧
  (∀ e ∈ c.table, e.seq < c.next_seq) ∧
  c.table.Pairwise (fun a b => ¬ (a.input = b.input ∧ a.pre = b.pre))

/-- The sequence-number part of well-formedness: distinct stamps, all
strictly below `next_seq`. -/
def SeqInv (c : StateCache) : Prop :=
  (c.table.map CacheEntry.seq).Nodup ∧ ∀ e ∈ c.table, e.seq < c.next_seq

/-- The cache is consistent with the core's step function: every stored
post-state is the step of its key. -/
def Consistent (step : Byte → List Byte → List Byte) (c : StateCache) : Prop :=
  ∀ e ∈ c.table, e.post = step e.input e.pre

/-- The cache holds an entry for the key `(b, s)`. -/
def HasKey (c : StateCache) (b : Byte) (s : List Byte) : Prop :=
  ∃ e ∈ c.table, e.input = b ∧ e.pre = s

/-- The cache holds an entry for every `(input, pre-state)` pair that a
replay of `inputs` from machine state `m` will look up. -/
def KeysSeen (step : Byte → List Byte → List Byte) (c : StateCache) :
    List Byte → List Byte → Prop
  | m, b :: rest => HasKey c b m ∧ KeysSeen step c (step b m) rest
  | _, [] => True

end StateCache

/-! ## Theorems -/

/-- C9: every frontend operation that requires a loaded core is a no-op
returning an empty or zero result when no core/ROM is initialized
(wrapper and cache absent): Step and StepFull leave the state unchanged,
GetMemory and SaveUncompressed yield the empty vector, RamChecksum is 0,
LoadUncompressed does nothing, and CachingStep and ResetCache leave the
state unchanged (in particular they do not abort). -/
theorem c9_uninitialized_noop
    (step : Byte → List Byte → List Byte) (getMem : List Byte → List Byte)
    (cityHash : List Byte → Nat) (e : Emu)
    (hw : e.wrapper = none) (hc : e.cache = none)
    (b : Byte) (inp : List Byte) (l s : Nat) :
    EmulatorLibretro.Step step b e = e ∧
    EmulatorLibretro.StepFull step b e = e ∧
    EmulatorLibretro.GetMemory getMem e = [] ∧
    EmulatorLibretro.SaveUncompressed e = [] ∧
    EmulatorLibretro.RamChecksum getMem cityHash e = 0 ∧
    EmulatorLibretro.LoadUncompressed inp e = e ∧
    EmulatorLibretro.CachingStep step b e = e ∧
    EmulatorLibretro.ResetCache l s e = e := by
  simp [EmulatorLibretro.Step, EmulatorLibretro.StepFull, EmulatorLibretro.GetMemory,
    EmulatorLibretro.SaveUncompressed, EmulatorLibretro.RamChecksum,
    EmulatorLibretro.LoadUncompressed, EmulatorLibretro.CachingStep,
    EmulatorLibretro.ResetCache, hw, hc]

/-- Witness for C9 at the concrete uninitialized frontend state. -/
theorem c9_uninitialized_noop_witness :
    EmulatorLibretro.Step (fun b w => b :: w) 3 ⟨none, none⟩ = (⟨none, none⟩ : Emu) ∧
    EmulatorLibretro.StepFull (fun b w => b :: w) 3 ⟨none, none⟩ = (⟨none, none⟩ : Emu) ∧
    EmulatorLibretro.GetMemory id ⟨none, none⟩ = [] ∧
    EmulatorLibretro.SaveUncompressed ⟨none, none⟩ = [] ∧
    EmulatorLibretro.RamChecksum id (fun _ => 7) ⟨none, none⟩ = 0 ∧
    EmulatorLibretro.LoadUncompressed [5] ⟨none, none⟩ = (⟨none, none⟩ : Emu) ∧
    EmulatorLibretro.CachingStep (fun b w => b :: w) 3 ⟨none, none⟩ = (⟨none, none⟩ : Emu) ∧
    EmulatorLibretro.ResetCache 2 4 ⟨none, none⟩ = (⟨none, none⟩ : Emu) :=
  c9_uninitialized_noop (fun b w => b :: w) id (fun _ => 7) ⟨none, none⟩ rfl rfl 3 [5] 2 4

/-- C7 counterexample: on the input movie `[0, 1]` the constructor's
fast-forward loop produces the output movie `[0, 1]`, not just the
leading zeroes `[0]`: the first non-zero byte is also stepped and
appended before the loop breaks. -/
theorem c7_counterexample :
    (PlayFun.fastForward (fun _ w => w) [0, 1] ⟨some [], none⟩).2
      ≠ List.takeWhile (fun b => decide (b = (0 : Byte))) [0, 1] := by
  decide

/-- C7 amended: the output movie after construction is the leading
zeroes of the input movie followed by the first non-zero byte when one
exists, and exactly the movie's bytes have been stepped through the
emulator, in order. -/
theorem c7_fastforward_amended
    (step : Byte → List Byte → List Byte) (sol : List Byte) (e : Emu) :
    (PlayFun.fastForward step sol e).2
      = sol.takeWhile (fun b => decide (b = 0))
          ++ (sol.dropWhile (fun b => decide (b = 0))).take 1
    ∧ (PlayFun.fastForward step sol e).1
      = (PlayFun.fastForward step sol e).2.foldl
          (fun a b => EmulatorLibretro.Step step b a) e := by
  induction sol generalizing e with
  | nil => simp [PlayFun.fastForward]
  | cons b rest ih =>
      by_cases hb : b = (0 : Byte)
      · subst hb
        have h1 := (ih (EmulatorLibretro.Step step 0 e)).1
        have h2 := (ih (EmulatorLibretro.Step step 0 e)).2
        constructor
        · simp [PlayFun.fastForward, h1]
        · simp [PlayFun.fastForward, h1, h2]
      · constructor
        · simp [PlayFun.fastForward, hb]
        · simp [PlayFun.fastForward, hb]

/-- The canonical frame has exactly 262144 bytes after any video-refresh
callback. -/
theorem applyVideo_length (g : List Byte) (fb : FrameBuffer) :
    (applyVideo g fb).length = 262144 := by
  rw [applyVideo]
  exact List.length_ofFn _

/-- After at least one video-refresh callback the frame length is fixed. -/
theorem frameFold_length (fbs : List FrameBuffer) :
    ∀ g : List Byte, fbs ≠ [] → (fbs.foldl applyVideo g).length = 262144 := by
  induction fbs with
  | nil => intro g h; exact absurd rfl h
  | cons f rest ih =>
      intro g _
      cases rest with
      | nil =>
          rw [List.foldl_cons, List.foldl_nil]
          exact applyVideo_length g f
      | cons f2 r2 =>
          rw [List.foldl_cons]
          exact ih (applyVideo g f) (by simp)

/-- The empty initial frame vector is all padding zeroes. -/
theorem padZero_nil (w h : Nat) : PadZero w h [] := by
  intro y x c _ _ _ _
  simp

/-- Reading inside the bounds of a table-built list yields the entry. -/
theorem getD_ofFn {α : Type} {n : Nat} (f : Fin n → α) (d : α) (i : Nat)
    (h : i < n) : (List.ofFn f).getD i d = f ⟨i, h⟩ := by
  have hl : i < (List.ofFn f).length := by rw [List.length_ofFn]; exact h
  rw [List.getD_eq_getElem _ _ hl, List.getElem_ofFn]

/-- Reading a byte of the frame after a callback evaluates `framePixel`. -/
theorem applyVideo_getD (g : List Byte) (fb : FrameBuffer) (i : Nat)
    (h : i < 262144) : (applyVideo g fb).getD i 0 = framePixel g fb i := by
  rw [applyVideo]
  exact getD_ofFn _ _ _ h

/-- A video-refresh callback with reported size `w x h` never writes a
pixel at a row at/beyond `h` or a column at/beyond `w`, so padding stays
zero. -/
theorem padZero_applyVideo (w h : Nat) (g : List Byte) (fb : FrameBuffer)
    (hg : PadZero w h g) (hw : fb.width = w) (hh : fb.height = h) :
    PadZero w h (applyVideo g fb) := by
  intro y x c hy hx hc hpad
  have hidx : y * 1024 + x * 4 + c < 262144 := by omega
  rw [applyVideo_getD g fb _ hidx]
  simp only [framePixel]
  have hy' : (y * 1024 + x * 4 + c) / 1024 = y := by omega
  have hx' : ((y * 1024 + x * 4 + c) % 1024) / 4 = x := by omega
  split
  · next hcond =>
      exfalso
      obtain ⟨h1, h2, -⟩ := hcond
      rw [hh] at h1
      rw [hw] at h2
      omega
  · exact hg y x c hy hx hc hpad

/-- Padding zeroes are preserved across any run of constant-size
video-refresh callbacks. -/
theorem padZero_fold (w h : Nat) (fbs : List FrameBuffer) :
    ∀ g, PadZero w h g → (∀ fb ∈ fbs, fb.width = w ∧ fb.height = h) →
      PadZero w h (fbs.foldl applyVideo g) := by
  induction fbs with
  | nil => intro g hg _; simpa using hg
  | cons f rest ih =>
      intro g hg hdim
      rw [List.foldl_cons]
      exact ih (applyVideo g f)
        (padZero_applyVideo w h g f hg (hdim f (by simp)).1 (hdim f (by simp)).2)
        (fun fb hfb => hdim fb (by simp [hfb]))

/-- C8 counterexample: before the first completed video-refresh callback
the cached canonical frame is still the empty vector, so `GetImage`
returns a buffer of length 0, not 262144. -/
theorem c8_counterexample :
    (EmulatorLibretro.GetImage (frameAfter [])).length ≠ 262144 := by
  decide

/-- C8 amended: after at least one completed video-refresh callback,
with every callback so far reporting the same width and height, the
`GetImage` output has length exactly 262144 and every pixel at a row at
or beyond the reported height or a column at or beyond the reported
width is (0,0,0,0). -/
theorem c8_getimage_amended (w h : Nat) (fbs : List FrameBuffer)
    (hne : fbs ≠ []) (hdim : ∀ fb ∈ fbs, fb.width = w ∧ fb.height = h) :
    (EmulatorLibretro.GetImage (frameAfter fbs)).length = 262144 ∧
    PadZero w h (EmulatorLibretro.GetImage (frameAfter fbs)) := by
  constructor
  · simpa [EmulatorLibretro.GetImage, frameAfter] using frameFold_length fbs [] hne
  · simpa [EmulatorLibretro.GetImage, frameAfter] using
      padZero_fold w h fbs [] (padZero_nil w h) hdim

/-- Witness for C8 at a concrete one-callback run. -/
theorem c8_getimage_amended_witness :
    (EmulatorLibretro.GetImage (frameAfter [⟨2, 2, 8, []⟩])).length = 262144 :=
  (c8_getimage_amended 2 2 [⟨2, 2, 8, []⟩] (by simp) (by simp)).1

/-- Basis subtraction does not change the state length. -/
theorem deltaSub_length : ∀ (raw basis : List Byte),
    (EmulatorLibretro.deltaSub raw basis).length = raw.length := by
  intro raw
  induction raw with
  | nil => intro basis; cases basis <;> rfl
  | cons r rs ih =>
      intro basis
      cases basis with
      | nil => rfl
      | cons b bs => simp [EmulatorLibretro.deltaSub, ih bs]

/-- Adding the basis back undoes the subtraction, bytewise mod 256. -/
theorem deltaAdd_deltaSub : ∀ (raw basis : List Byte),
    EmulatorLibretro.deltaAdd (EmulatorLibretro.deltaSub raw basis) basis = raw := by
  intro raw
  induction raw with
  | nil => intro basis; cases basis <;> rfl
  | cons r rs ih =>
      intro basis
      cases basis with
      | nil => rfl
      | cons b bs =>
          simp only [EmulatorLibretro.deltaSub, EmulatorLibretro.deltaAdd]
          rw [sub_add_cancel, ih bs]

/-- The little-endian header length is 4. -/
theorem le32_length (n : Nat) : (EmulatorLibretro.le32 n).length = 4 := rfl

/-- The header round-trips sizes below 2^32. -/
theorem readLe32_le32 (n : Nat) (hn : n < 4294967296) :
    EmulatorLibretro.readLe32 (EmulatorLibretro.le32 n) = n := by
  simp only [EmulatorLibretro.readLe32, EmulatorLibretro.le32, List.getD_cons_zero,
    List.getD_cons_succ]
  rw [ZMod.val_natCast, ZMod.val_natCast, ZMod.val_natCast, ZMod.val_natCast]
  omega

/-- The byte-level round trip behind C2, generic in the basis. -/
theorem loadExBytes_saveEx
    (compressFn : List Byte → List Byte)
    (uncompressFn : List Byte → Nat → Option (List Byte))
    (hzip : ∀ r cap, r.length ≤ cap → uncompressFn (compressFn r) cap = some r)
    (s : List Byte) (hlen : s.length < 4294967296)
    (B : Option (List Byte)) (cc : Option StateCache) :
    EmulatorLibretro.LoadExBytes uncompressFn B
      (EmulatorLibretro.SaveEx compressFn B ⟨some s, cc⟩) = some s := by
  cases B with
  | none =>
      show EmulatorLibretro.LoadExBytes uncompressFn none
          (EmulatorLibretro.le32 s.length ++ compressFn s) = some s
      rw [EmulatorLibretro.LoadExBytes]
      have h4 : ¬ ((EmulatorLibretro.le32 s.length ++ compressFn s).length < 4) := by
        rw [List.length_append, le32_length]
        omega
      rw [if_neg h4]
      have htake := List.take_left (EmulatorLibretro.le32 s.length) (compressFn s)
      rw [le32_length] at htake
      have hdrop := List.drop_left (EmulatorLibretro.le32 s.length) (compressFn s)
      rw [le32_length] at hdrop
      rw [htake, hdrop, readLe32_le32 s.length hlen, hzip s s.length (le_refl _)]
      rfl
  | some b =>
      show EmulatorLibretro.LoadExBytes uncompressFn (some b)
          (EmulatorLibretro.le32 s.length
            ++ compressFn (EmulatorLibretro.deltaSub s b)) = some s
      rw [EmulatorLibretro.LoadExBytes]
      have h4 : ¬ ((EmulatorLibretro.le32 s.length
          ++ compressFn (EmulatorLibretro.deltaSub s b)).length < 4) := by
        rw [List.length_append, le32_length]
        omega
      rw [if_neg h4]
      have htake := List.take_left (EmulatorLibretro.le32 s.length)
        (compressFn (EmulatorLibretro.deltaSub s b))
      rw [le32_length] at htake
      have hdrop := List.drop_left (EmulatorLibretro.le32 s.length)
        (compressFn (EmulatorLibretro.deltaSub s b))
      rw [le32_length] at hdrop
      rw [htake, hdrop, readLe32_le32 s.length hlen]
      rw [hzip (EmulatorLibretro.deltaSub s b) s.length (by rw [deltaSub_length])]
      simp [deltaAdd_deltaSub]

/-- C2: compressed-state round trip.  For every machine state `s` (of
realistic size, nonempty and below 2^32 bytes) and every basis `B`,
assuming inflate inverts deflate, `LoadEx(SaveEx(s, B), B)` recovers
exactly the bytes `s` (the 8-bit wrapping basis subtraction on save and
addition on load cancel over the common prefix), and feeding them to the
machine restores the state `s`; in particular `Load(Save(s))` restores
`s` when no basis is supplied. -/
theorem c2_saveex_loadex_roundtrip
    (compressFn : List Byte → List Byte)
    (uncompressFn : List Byte → Nat → Option (List Byte))
    (hzip : ∀ r cap, r.length ≤ cap → uncompressFn (compressFn r) cap = some r)
    (s : List Byte) (hlen : s.length < 4294967296) (hne : s ≠ [])
    (B : Option (List Byte)) (cc : Option StateCache) :
    EmulatorLibretro.LoadExBytes uncompressFn B
      (EmulatorLibretro.SaveEx compressFn B ⟨some s, cc⟩) = some s
    ∧ (∀ (m : List Byte) (cc2 : Option StateCache),
        EmulatorLibretro.LoadEx uncompressFn B
          (EmulatorLibretro.SaveEx compressFn B ⟨some s, cc⟩) ⟨some m, cc2⟩
          = ⟨some s, cc2⟩)
    ∧ (∀ (m : List Byte) (cc2 : Option StateCache),
        EmulatorLibretro.Load uncompressFn
          (EmulatorLibretro.Save compressFn ⟨some s, cc⟩) ⟨some m, cc2⟩
          = ⟨some s, cc2⟩) := by
  have h1 := loadExBytes_saveEx compressFn uncompressFn hzip s hlen B cc
  have h2 : ∀ (m : List Byte) (cc2 : Option StateCache),
      EmulatorLibretro.LoadEx uncompressFn B
        (EmulatorLibretro.SaveEx compressFn B ⟨some s, cc⟩) ⟨some m, cc2⟩
        = ⟨some s, cc2⟩ := by
    intro m cc2
    rw [EmulatorLibretro.LoadEx, h1]
    simp [EmulatorLibretro.LoadUncompressed, hne]
  refine ⟨h1, h2, ?_⟩
  intro m cc2
  have h0 := loadExBytes_saveEx compressFn uncompressFn hzip s hlen none cc
  rw [EmulatorLibretro.Load, EmulatorLibretro.Save, EmulatorLibretro.LoadEx, h0]
  simp [EmulatorLibretro.LoadUncompressed, hne]

/-- Witness for C2 at a concrete state, basis and invertible coder. -/
theorem c2_saveex_loadex_roundtrip_witness :
    EmulatorLibretro.LoadExBytes
        (fun p cap => if p.length ≤ cap then some p else none) (some [7, 9])
        (EmulatorLibretro.SaveEx id (some [7, 9]) ⟨some [1, 2, 3], none⟩)
      = some [1, 2, 3] :=
  (c2_saveex_loadex_roundtrip id
    (fun p cap => if p.length ≤ cap then some p else none)
    (fun r cap h => by simp [h]) [1, 2, 3] (by decide) (by simp)
    (some [7, 9]) none).1

/-- C3 counterexample: a concrete instantiation (core appending the
input byte to the state, memory equal to the state, score equal to the
length of the baseline memory, one-byte motifs, depth-one rollouts) on
which the candidate evaluation of the source differs from the claimed
one that scores every rollout against the pre-motif memory: the code
passes the post-motif memory to both future scorers. -/
theorem c3_counterexample :
    (PlayFun.evalCandidate (fun b w => w ++ [b]) id (fun m1 _ => (m1.length : ℚ))
        (fun _ => [0]) (fun _ => 1) (fun _ => 1) [] [] [0] true ⟨some [], none⟩ 0).1
      ≠ (PlayFun.evalCandidateBase (fun b w => w ++ [b]) id (fun m1 _ => (m1.length : ℚ))
        (fun _ => [0]) (fun _ => 1) (fun _ => 1) (fun m0 _ => m0) [] [] [0] true
        ⟨some [], none⟩ 0).1 := by
  simp [PlayFun.evalCandidate, PlayFun.evalCandidateBase, PlayFun.AvoidBadFutures,
    PlayFun.avoidD, PlayFun.avoidX, PlayFun.seekD, PlayFun.SeekGoodFutures,
    EmulatorLibretro.CachingStep, EmulatorLibretro.Step, EmulatorLibretro.GetMemory,
    EmulatorLibretro.LoadUncompressed, EmulatorLibretro.SaveUncompressed]

/-- C3 amended: in every candidate-motif evaluation of the per-frame
Greedy loop, both the avoid-bad-futures score and the seek-good-futures
score are computed with the post-motif memory (the `new_memory` snapshot
taken after applying the candidate motif) as the scoring baseline, not
with the pre-motif memory. -/
theorem c3_futures_baseline_amended
    (step : Byte → List Byte → List Byte) (getMem : List Byte → List Byte)
    (scoreChange : List Byte → List Byte → ℚ) (motifStream : Nat → List Byte)
    (avoidDepths : Fin 2 → Nat) (seekDepths : Fin 3 → Nat)
    (current_state current_memory motif : List Byte) (firstTrial : Bool)
    (e : Emu) (rng : Nat) :
    PlayFun.evalCandidate step getMem scoreChange motifStream avoidDepths
        seekDepths current_state current_memory motif firstTrial e rng
      = PlayFun.evalCandidateBase step getMem scoreChange motifStream avoidDepths
        seekDepths (fun _ m1 => m1) current_state current_memory motif firstTrial
        e rng := rfl

/-- C6 counterexample: remembering the same key `(0, [1])` twice in a
fresh cache of limit 10 and slop 10 leaves `count = 2` while the table
holds a single entry (the second `emplace` inserts nothing but `count`
is still incremented), so `count` does not equal the number of stored
entries. -/
theorem c6_counterexample :
    ¬ ((((StateCache.init.Resize 10 10).Remember 0 [1] [2]).Remember 0 [1] [3]).count
      = (((StateCache.init.Resize 10 10).Remember 0 [1] [2]).Remember 0 [1] [3]).table.length) := by
  decide

namespace StateCache

/-- Key matching unfolds to propositional equality of the key fields. -/
theorem keyMatches_iff (b : Byte) (s : List Byte) (e : CacheEntry) :
    keyMatches b s e = true ↔ e.input = b ∧ e.pre = s := by
  simp [keyMatches]

/-- A key is present exactly when the lookup finds an entry. -/
theorem hasKey_iff_find (c : StateCache) (b : Byte) (s : List Byte) :
    c.HasKey b s ↔ (c.table.find? (keyMatches b s)).isSome := by
  rw [List.find?_isSome]
  constructor
  · rintro ⟨e, he, h1, h2⟩
    exact ⟨e, he, (keyMatches_iff b s e).mpr ⟨h1, h2⟩⟩
  · rintro ⟨e, he, h⟩
    rw [keyMatches_iff] at h
    exact ⟨e, he, h.1, h.2⟩

/-- Splitting a list by a predicate splits its length. -/
theorem length_filter_not_add {α : Type} (p : α → Bool) (l : List α) :
    (l.filter (fun a => ! p a)).length + (l.filter p).length = l.length := by
  induction l with
  | nil => rfl
  | cons a t ih => cases h : p a <;> simp [List.filter_cons, h] <;> omega

/-- In a strictly sorted list, exactly `k` elements are below the entry
at index `k`. -/
theorem countP_lt_getElem_of_sorted : ∀ (s : List Nat), s.Sorted (· < ·) →
    ∀ (k : Nat) (hk : k < s.length),
      s.countP (fun y => decide (y < s[k])) = k := by
  intro s
  induction s with
  | nil => intro _ k hk; simp at hk
  | cons a t ih =>
      intro hs k hk
      rw [List.sorted_cons] at hs
      obtain ⟨ha, ht⟩ := hs
      cases k with
      | zero =>
          rw [List.countP_cons]
          simp only [List.getElem_cons_zero]
          have h2 : t.countP (fun y => decide (y < a)) = 0 := by
            rw [List.countP_eq_zero]
            intro x hx
            have := ha x hx
            simp only [decide_eq_true_eq]
            omega
          rw [h2]
          simp
      | succ k0 =>
          have hk0 : k0 < t.length := by simpa using hk
          rw [List.countP_cons]
          simp only [List.getElem_cons_succ]
          have hmem : t[k0] ∈ t := List.getElem_mem hk0
          have h1 : decide (a < t[k0]) = true := by
            simp only [decide_eq_true_eq]
            exact ha _ hmem
          rw [ih ht k0 hk0]
          simp [h1]

/-- `MaybeGC` does nothing at or below the soft bound. -/
theorem maybeGC_noop (c : StateCache) (h : c.count ≤ c.limit + c.slop) :
    c.MaybeGC = c := by
  rw [MaybeGC, if_pos h]

/-- `MaybeGC` in the eviction branch keeps the above-cutoff entries. -/
theorem maybeGC_gc_eq (c : StateCache) (h : ¬ (c.count ≤ c.limit + c.slop)) :
    c.MaybeGC = { c with
      table := c.table.filter (fun e => ! decide (e.seq < gcMinSeq c)),
      count := c.count - (c.table.filter (fun e => decide (e.seq < gcMinSeq c))).length } := by
  rw [MaybeGC, if_neg h]

/-- `MaybeGC` never touches limit, slop, sequence counter or the
hit/miss counters. -/
theorem maybeGC_fields (c : StateCache) :
    (c.MaybeGC).limit = c.limit ∧ (c.MaybeGC).slop = c.slop ∧
    (c.MaybeGC).next_seq = c.next_seq ∧ (c.MaybeGC).hits = c.hits ∧
    (c.MaybeGC).misses = c.misses := by
  rw [MaybeGC]
  split <;> simp

/-- The surviving table is a sublist of the original. -/
theorem maybeGC_table_sublist (c : StateCache) :
    (c.MaybeGC).table.Sublist c.table := by
  rw [MaybeGC]
  split
  · exact List.Sublist.refl _
  · exact List.filter_sublist _

/-- `MaybeGC` never increases `count`. -/
theorem maybeGC_count_le (c : StateCache) : (c.MaybeGC).count ≤ c.count := by
  rw [MaybeGC]
  split
  · exact le_refl _
  · simp only
    omega

/-- `MaybeGC` keeps `count` equal to the table size. -/
theorem maybeGC_count_len (c : StateCache) (hcl : c.count = c.table.length) :
    (c.MaybeGC).count = (c.MaybeGC).table.length := by
  rw [MaybeGC]
  split
  · exact hcl
  · simp only
    have hp := length_filter_not_add (fun e => decide (e.seq < gcMinSeq c)) c.table
    have hle := List.length_filter_le (fun e => decide (e.seq < gcMinSeq c)) c.table
    omega

/-- `MaybeGC` preserves well-formedness. -/
theorem wf_maybeGC (c : StateCache) (h : c.WF) : (c.MaybeGC).WF := by
  obtain ⟨h1, h2, h3, h4⟩ := h
  refine ⟨maybeGC_count_len c h1, ?_, ?_, ?_⟩
  · exact List.Nodup.sublist (List.Sublist.map _ (maybeGC_table_sublist c)) h2
  · intro e he
    rw [(maybeGC_fields c).2.2.1]
    exact h3 e ((maybeGC_table_sublist c).subset he)
  · exact List.Pairwise.sublist (maybeGC_table_sublist c) h4

/-- `MaybeGC` preserves the sequence-number invariant. -/
theorem seqInv_maybeGC (c : StateCache) (h : c.SeqInv) : (c.MaybeGC).SeqInv := by
  obtain ⟨h2, h3⟩ := h
  refine ⟨?_, ?_⟩
  · exact List.Nodup.sublist (List.Sublist.map _ (maybeGC_table_sublist c)) h2
  · intro e he
    rw [(maybeGC_fields c).2.2.1]
    exact h3 e ((maybeGC_table_sublist c).subset he)

/-- `MaybeGC` preserves consistency with the step function. -/
theorem consistent_maybeGC (step : Byte → List Byte → List Byte)
    (c : StateCache) (h : c.Consistent step) : (c.MaybeGC).Consistent step :=
  fun e he => h e ((maybeGC_table_sublist c).subset he)

/-- The heart of eviction: in the eviction branch the cutoff is the
`(count - limit)`-th smallest stamp, exactly `count - limit` entries lie
below it, and the `limit` survivors all dominate every removed entry. -/
theorem maybeGC_spec (c : StateCache) (hcl : c.count = c.table.length)
    (hnd : (c.table.map CacheEntry.seq).Nodup) (hpos : 0 < c.limit)
    (hgc : c.limit + c.slop < c.count) :
    (c.MaybeGC).table.length = c.limit ∧ (c.MaybeGC).count = c.limit ∧
    (c.MaybeGC).table.Sublist c.table ∧
    (∀ e ∈ c.table, e ∉ (c.MaybeGC).table →
      ∀ e2 ∈ (c.MaybeGC).table, e.seq < e2.seq) := by
  have hif : ¬ (c.count ≤ c.limit + c.slop) := by omega
  have hmgc := maybeGC_gc_eq c hif
  have hperm : ((c.table.map CacheEntry.seq).mergeSort (fun a b => decide (a ≤ b))).Perm
      (c.table.map CacheEntry.seq) := List.mergeSort_perm _ _
  have hsorted' : List.Pairwise (fun a b => (decide (a ≤ b)) = true)
      ((c.table.map CacheEntry.seq).mergeSort (fun a b => decide (a ≤ b))) :=
    List.sorted_mergeSort (by intro a b c2 h1 h2; simp only [decide_eq_true_eq] at h1 h2 ⊢; omega)
      (by intro a b; simp only [Bool.or_eq_true, decide_eq_true_eq]; omega) _
  have hsorted : ((c.table.map CacheEntry.seq).mergeSort (fun a b => decide (a ≤ b))).Sorted (· ≤ ·) :=
    hsorted'.imp (by intro a b h; simpa using h)
  have hnds : ((c.table.map CacheEntry.seq).mergeSort (fun a b => decide (a ≤ b))).Nodup :=
    (hperm.nodup_iff).mpr hnd
  have hlt := hsorted.lt_of_le hnds
  have hslen : ((c.table.map CacheEntry.seq).mergeSort (fun a b => decide (a ≤ b))).length
      = c.count := by
    rw [hperm.length_eq, List.length_map, ← hcl]
  have hks : c.count - c.limit
      < ((c.table.map CacheEntry.seq).mergeSort (fun a b => decide (a ≤ b))).length := by
    omega
  have hM : gcMinSeq c
      = ((c.table.map CacheEntry.seq).mergeSort (fun a b => decide (a ≤ b)))[c.count - c.limit] := by
    rw [gcMinSeq]
    exact List.getD_eq_getElem _ _ hks
  have hcnt := countP_lt_getElem_of_sorted _ hlt (c.count - c.limit) hks
  have hrem : (c.table.filter (fun e => decide (e.seq < gcMinSeq c))).length
      = c.count - c.limit := by
    rw [← List.countP_eq_length_filter, hM]
    calc c.table.countP (fun e => decide (e.seq
            < ((c.table.map CacheEntry.seq).mergeSort (fun a b => decide (a ≤ b)))[c.count - c.limit]))
        = (c.table.map CacheEntry.seq).countP (fun y => decide (y
            < ((c.table.map CacheEntry.seq).mergeSort (fun a b => decide (a ≤ b)))[c.count - c.limit])) := by
          rw [List.countP_map]
          rfl
      _ = ((c.table.map CacheEntry.seq).mergeSort (fun a b => decide (a ≤ b))).countP
            (fun y => decide (y
              < ((c.table.map CacheEntry.seq).mergeSort (fun a b => decide (a ≤ b)))[c.count - c.limit])) :=
          (hperm.countP_eq _).symm
      _ = c.count - c.limit := hcnt
  have hsurv : (c.table.filter (fun e => ! decide (e.seq < gcMinSeq c))).length = c.limit := by
    have hp := length_filter_not_add (fun e => decide (e.seq < gcMinSeq c)) c.table
    omega
  refine ⟨?_, ?_, ?_, ?_⟩
  · rw [hmgc]
    exact hsurv
  · rw [hmgc]
    simp only
    omega
  · exact maybeGC_table_sublist c
  · intro e he hnot e2 he2
    rw [hmgc] at hnot he2
    simp only [List.mem_filter, Bool.not_eq_eq_eq_not, Bool.not_true, decide_eq_false_iff_not,
      not_lt] at he2
    have h1 : e.seq < gcMinSeq c := by
      by_contra hcon
      exact hnot (List.mem_filter.mpr ⟨he, by simpa using hcon⟩)
    omega

end StateCache

namespace StateCache

/-- The sequence bump does not change an entry's input. -/
theorem bump_input (b : Byte) (s : List Byte) (ns : Nat) (e2 : CacheEntry) :
    ((if keyMatches b s e2 then { e2 with seq := ns } else e2) : CacheEntry).input
      = e2.input := by
  split <;> rfl

/-- The sequence bump does not change an entry's pre-state. -/
theorem bump_pre (b : Byte) (s : List Byte) (ns : Nat) (e2 : CacheEntry) :
    ((if keyMatches b s e2 then { e2 with seq := ns } else e2) : CacheEntry).pre
      = e2.pre := by
  split <;> rfl

/-- The sequence bump does not change an entry's post-state. -/
theorem bump_post (b : Byte) (s : List Byte) (ns : Nat) (e2 : CacheEntry) :
    ((if keyMatches b s e2 then { e2 with seq := ns } else e2) : CacheEntry).post
      = e2.post := by
  split <;> rfl

/-- A missed lookup only counts a miss. -/
theorem getKnown_miss (c : StateCache) (b : Byte) (s : List Byte)
    (h : ¬ c.HasKey b s) :
    c.GetKnown b s = (none, { c with misses := c.misses + 1 }) := by
  have hfind : c.table.find? (keyMatches b s) = none := by
    rw [List.find?_eq_none]
    intro x hx hmx
    exact h ⟨x, hx, ((keyMatches_iff b s x).mp hmx).1, ((keyMatches_iff b s x).mp hmx).2⟩
  rw [GetKnown.eq_def, hfind]

/-- A hit lookup finds an entry with the looked-up key and returns its
post-state, bumping its stamp. -/
theorem getKnown_hit (c : StateCache) (b : Byte) (s : List Byte)
    (h : c.HasKey b s) :
    ∃ e, c.table.find? (keyMatches b s) = some e ∧ e ∈ c.table ∧
      e.input = b ∧ e.pre = s ∧
      c.GetKnown b s = (some e.post,
        { c with
          hits := c.hits + 1,
          next_seq := c.next_seq + 1,
          table := c.table.map (fun e2 =>
            if keyMatches b s e2 then { e2 with seq := c.next_seq } else e2) }) := by
  have hsome : (c.table.find? (keyMatches b s)).isSome := (hasKey_iff_find c b s).mp h
  obtain ⟨e, he⟩ := Option.isSome_iff_exists.mp hsome
  have hkm := List.find?_some he
  rw [keyMatches_iff] at hkm
  exact ⟨e, he, List.mem_of_find?_eq_some he, hkm.1, hkm.2, by rw [GetKnown.eq_def, he]⟩

/-- A lookup preserves every present key. -/
theorem getKnown_hasKey (c : StateCache) (b : Byte) (s : List Byte)
    (x : Byte) (y : List Byte) (h : c.HasKey x y) :
    ((c.GetKnown b s).2).HasKey x y := by
  rw [GetKnown.eq_def]
  obtain ⟨e, he, h1, h2⟩ := h
  cases hf : c.table.find? (keyMatches b s) with
  | none => exact ⟨e, he, h1, h2⟩
  | some e0 =>
      refine ⟨if keyMatches b s e then { e with seq := c.next_seq } else e, ?_, ?_, ?_⟩
      · exact List.mem_map.mpr ⟨e, he, rfl⟩
      · rw [bump_input]
        exact h1
      · rw [bump_pre]
        exact h2

/-- A lookup preserves consistency with the step function. -/
theorem consistent_getKnown (step : Byte → List Byte → List Byte)
    (c : StateCache) (b : Byte) (s : List Byte) (h : c.Consistent step) :
    ((c.GetKnown b s).2).Consistent step := by
  rw [GetKnown.eq_def]
  cases hf : c.table.find? (keyMatches b s) with
  | none => exact h
  | some e0 =>
      intro x hx
      obtain ⟨a, ha, hfa⟩ := List.mem_map.mp hx
      rw [← hfa, bump_post, bump_input, bump_pre]
      exact h a ha

/-- A lookup never changes count, limit or slop. -/
theorem getKnown_fields (c : StateCache) (b : Byte) (s : List Byte) :
    ((c.GetKnown b s).2).count = c.count ∧ ((c.GetKnown b s).2).limit = c.limit ∧
    ((c.GetKnown b s).2).slop = c.slop := by
  rw [GetKnown.eq_def]
  cases hf : c.table.find? (keyMatches b s) <;> simp

/-- The sequence bump on a hit keeps the stamps distinct: the bumped
entry is the unique key match and receives a stamp fresh above every
other. -/
theorem bump_seq_nodup (b : Byte) (s : List Byte) (ns : Nat) :
    ∀ (t : List CacheEntry),
      (t.map CacheEntry.seq).Nodup →
      (∀ e ∈ t, e.seq < ns) →
      t.Pairwise (fun a a2 => ¬ (a.input = a2.input ∧ a.pre = a2.pre)) →
      ((t.map (fun e2 => if keyMatches b s e2 then { e2 with seq := ns } else e2)).map
        CacheEntry.seq).Nodup := by
  intro t
  induction t with
  | nil => intro _ _ _; simp
  | cons a t ih =>
      intro hnd hbound hpw
      rw [List.map_cons] at hnd
      rw [List.nodup_cons] at hnd
      rw [List.pairwise_cons] at hpw
      rw [List.map_cons, List.map_cons, List.nodup_cons]
      constructor
      · intro hmem
        rw [List.map_map, List.mem_map] at hmem
        obtain ⟨x, hx, hxx⟩ := hmem
        by_cases hka : keyMatches b s a
        · by_cases hkx : keyMatches b s x
          · rw [keyMatches_iff] at hka hkx
            exact hpw.1 x hx ⟨hka.1.trans hkx.1.symm, hka.2.trans hkx.2.symm⟩
          · simp only [Function.comp, hka, hkx, if_true, if_false] at hxx
            have := hbound x (by exact List.mem_cons_of_mem a hx)
            simp at hxx
            omega
        · by_cases hkx : keyMatches b s x
          · simp only [Function.comp, hka, hkx, if_true, if_false] at hxx
            have := hbound a (List.mem_cons_self a t)
            simp at hxx
            omega
          · simp only [Function.comp, hka, hkx, if_false] at hxx
            simp at hxx
            exact hnd.1 (List.mem_map.mpr ⟨x, hx, hxx⟩)
      · exact ih hnd.2 (fun e he => hbound e (List.mem_cons_of_mem a he)) hpw.2

/-- A lookup preserves well-formedness. -/
theorem wf_getKnown (c : StateCache) (b : Byte) (s : List Byte) (h : c.WF) :
    ((c.GetKnown b s).2).WF := by
  obtain ⟨h1, h2, h3, h4⟩ := h
  rw [GetKnown.eq_def]
  cases hf : c.table.find? (keyMatches b s) with
  | none => exact ⟨h1, h2, h3, h4⟩
  | some e0 =>
      refine ⟨?_, ?_, ?_, ?_⟩
      · simpa using h1
      · exact bump_seq_nodup b s c.next_seq c.table h2 h3 h4
      · intro x hx
        obtain ⟨a, ha, hfa⟩ := List.mem_map.mp hx
        subst hfa
        by_cases hka : keyMatches b s a
        · simp only [hka, if_true]
          omega
        · have := h3 a ha
          simp [hka]
          omega
      · rw [List.pairwise_map]
        refine h4.imp ?_
        intro a a2 hr
        rw [bump_input, bump_pre, bump_input, bump_pre]
        exact hr

end StateCache

namespace StateCache

/-- With the key absent, `Remember` appends a fresh entry stamped
`next_seq` before collecting garbage. -/
theorem remember_fresh_eq (c : StateCache) (b : Byte) (s r : List Byte)
    (h : ¬ c.HasKey b s) :
    c.Remember b s r = MaybeGC
      { c with
        table := c.table ++ [⟨b, s, c.next_seq, r⟩],
        next_seq := c.next_seq + 1,
        count := c.count + 1 } := by
  have hfind : (c.table.find? (keyMatches b s)).isSome = false := by
    rw [Bool.eq_false_iff]
    intro hcon
    exact h ((hasKey_iff_find c b s).mpr hcon)
  simp [Remember, hfind]

/-- With the key already present, `Remember` inserts nothing but still
burns a stamp and increments `count`. -/
theorem remember_dup_eq (c : StateCache) (b : Byte) (s r : List Byte)
    (h : c.HasKey b s) :
    c.Remember b s r = MaybeGC
      { c with next_seq := c.next_seq + 1, count := c.count + 1 } := by
  have hfind : (c.table.find? (keyMatches b s)).isSome = true :=
    (hasKey_iff_find c b s).mp h
  simp [Remember, hfind]

/-- The pre-GC state of a fresh `Remember` is well-formed. -/
theorem wf_remember_mid (c : StateCache) (b : Byte) (s r : List Byte)
    (h : c.WF) (hfresh : ¬ c.HasKey b s) :
    WF { c with
      table := c.table ++ [⟨b, s, c.next_seq, r⟩],
      next_seq := c.next_seq + 1,
      count := c.count + 1 } := by
  obtain ⟨h1, h2, h3, h4⟩ := h
  refine ⟨?_, ?_, ?_, ?_⟩
  · simp [h1]
  · rw [List.map_append, List.nodup_append]
    refine ⟨h2, by simp, ?_⟩
    intro x hx hy
    simp only [List.map_cons, List.map_nil, List.mem_singleton] at hy
    obtain ⟨e, he, hex⟩ := List.mem_map.mp hx
    have := h3 e he
    omega
  · intro e he
    rcases List.mem_append.mp he with he2 | he2
    · have := h3 e he2
      simp only
      omega
    · simp only [List.mem_singleton] at he2
      subst he2
      simp
  · rw [List.pairwise_append]
    refine ⟨h4, by simp, ?_⟩
    intro a ha bnew hbnew
    simp only [List.mem_singleton] at hbnew
    subst hbnew
    intro hcon
    exact hfresh ⟨a, ha, hcon.1, hcon.2⟩

/-- A fresh `Remember` preserves well-formedness. -/
theorem wf_remember_fresh (c : StateCache) (b : Byte) (s r : List Byte)
    (h : c.WF) (hfresh : ¬ c.HasKey b s) : (c.Remember b s r).WF := by
  rw [remember_fresh_eq c b s r hfresh]
  exact wf_maybeGC _ (wf_remember_mid c b s r h hfresh)

/-- `Remember` of the true step result preserves consistency. -/
theorem consistent_remember (step : Byte → List Byte → List Byte)
    (c : StateCache) (b : Byte) (s r : List Byte)
    (h : c.Consistent step) (hr : r = step b s) :
    (c.Remember b s r).Consistent step := by
  by_cases hk : c.HasKey b s
  · rw [remember_dup_eq c b s r hk]
    apply consistent_maybeGC
    intro e he
    exact h e he
  · rw [remember_fresh_eq c b s r hk]
    apply consistent_maybeGC
    intro e he
    rcases List.mem_append.mp he with he2 | he2
    · exact h e he2
    · simp only [List.mem_singleton] at he2
      subst he2
      exact hr

/-- `Remember` preserves the sequence-number invariant even when the
key is already present (the stamp is burnt either way). -/
theorem seqInv_remember (c : StateCache) (b : Byte) (s r : List Byte)
    (h : c.WF) : (c.Remember b s r).SeqInv := by
  obtain ⟨h1, h2, h3, h4⟩ := h
  by_cases hk : c.HasKey b s
  · rw [remember_dup_eq c b s r hk]
    apply seqInv_maybeGC
    refine ⟨h2, ?_⟩
    intro e he
    have := h3 e he
    simp only
    omega
  · rw [remember_fresh_eq c b s r hk]
    apply seqInv_maybeGC
    have hwfm := wf_remember_mid c b s r ⟨h1, h2, h3, h4⟩ hk
    exact ⟨hwfm.2.1, hwfm.2.2.1⟩

/-- `Remember` adds at most one to `count`. -/
theorem remember_count_le (c : StateCache) (b : Byte) (s r : List Byte) :
    (c.Remember b s r).count ≤ c.count + 1 := by
  by_cases hk : c.HasKey b s
  · rw [remember_dup_eq c b s r hk]
    exact maybeGC_count_le _
  · rw [remember_fresh_eq c b s r hk]
    exact maybeGC_count_le _

/-- `Remember` never changes limit or slop. -/
theorem remember_fields (c : StateCache) (b : Byte) (s r : List Byte) :
    (c.Remember b s r).limit = c.limit ∧ (c.Remember b s r).slop = c.slop := by
  by_cases hk : c.HasKey b s
  · rw [remember_dup_eq c b s r hk]
    exact ⟨(maybeGC_fields _).1, (maybeGC_fields _).2.1⟩
  · rw [remember_fresh_eq c b s r hk]
    exact ⟨(maybeGC_fields _).1, (maybeGC_fields _).2.1⟩

/-- With room below the soft bound, a fresh `Remember` is a plain
append: the GC does not fire. -/
theorem remember_fresh_noGC (c : StateCache) (b : Byte) (s r : List Byte)
    (hfresh : ¬ c.HasKey b s) (hroom : c.count + 1 ≤ c.limit + c.slop) :
    c.Remember b s r = { c with
      table := c.table ++ [⟨b, s, c.next_seq, r⟩],
      next_seq := c.next_seq + 1,
      count := c.count + 1 } := by
  rw [remember_fresh_eq c b s r hfresh]
  exact maybeGC_noop _ (by simpa using hroom)

/-- Under the cache-bound invariant, a fresh `Remember` lands back at or
below the soft bound (via the GC when it overflows by one). -/
theorem remember_count_bound (c : StateCache) (b : Byte) (s r : List Byte)
    (h : c.WF) (hpos : 0 < c.limit) (hfresh : ¬ c.HasKey b s)
    (hinv : c.count ≤ c.limit + c.slop) :
    (c.Remember b s r).count ≤ c.limit + c.slop := by
  by_cases hroom : c.count + 1 ≤ c.limit + c.slop
  · rw [remember_fresh_noGC c b s r hfresh hroom]
    exact hroom
  · rw [remember_fresh_eq c b s r hfresh]
    have hwfm := wf_remember_mid c b s r h hfresh
    have hspec := maybeGC_spec _ hwfm.1 hwfm.2.1 hpos
      (show c.limit + c.slop < c.count + 1 by omega)
    rw [hspec.2.1]
    exact Nat.le_add_right c.limit c.slop

end StateCache

/-- C4: eviction exactness.  When `MaybeGC` runs on a well-formed cache
with `count > limit + slop` (and a positive limit, without which the
source indexes out of bounds), exactly `limit` entries survive, `count`
is updated to match, the survivors are entries of the old table, and
every surviving entry's sequence number strictly dominates every removed
entry's: the survivors are exactly the `limit` entries with the largest
sequence numbers. -/
theorem c4_eviction_exactness (c : StateCache) (hwf : c.WF)
    (hpos : 0 < c.limit) (hgc : c.limit + c.slop < c.count) :
    (c.MaybeGC).table.length = c.limit ∧ (c.MaybeGC).count = c.limit ∧
    (c.MaybeGC).table.Sublist c.table ∧
    (∀ e ∈ c.table, e ∉ (c.MaybeGC).table →
      ∀ e2 ∈ (c.MaybeGC).table, e.seq < e2.seq) :=
  StateCache.maybeGC_spec c hwf.1 hwf.2.1 hpos hgc

/-- Witness for C4 at a concrete three-entry cache with limit 1. -/
theorem c4_eviction_exactness_witness :
    (((⟨[⟨0, [0], 0, [0]⟩, ⟨1, [1], 1, [1]⟩, ⟨2, [2], 2, [2]⟩],
        1, 3, 3, 0, 0, 0⟩ : StateCache).MaybeGC).table.length = 1) :=
  (c4_eviction_exactness
    ⟨[⟨0, [0], 0, [0]⟩, ⟨1, [1], 1, [1]⟩, ⟨2, [2], 2, [2]⟩], 1, 3, 3, 0, 0, 0⟩
    ⟨by decide, by decide, by decide, by decide⟩ (by decide) (by decide)).1

/-- C5: cache size bound.  On a well-formed cache with positive limit:
whenever the invariant `count ≤ limit + slop` holds, it still holds
after `Resize`, after `GetKnown`, after `MaybeGC`, and after a `Remember`
whose key is absent (the only kind the frontend issues); and whenever
`MaybeGC` runs in a state with `count > limit + slop`, it terminates
with `count ≤ limit`. -/
theorem c5_cache_bound (c : StateCache) (hwf : c.WF) (hpos : 0 < c.limit) :
    (c.count ≤ c.limit + c.slop →
      (∀ l s2, (c.Resize l s2).count ≤ (c.Resize l s2).limit + (c.Resize l s2).slop) ∧
      (∀ b s2, ((c.GetKnown b s2).2).count
        ≤ ((c.GetKnown b s2).2).limit + ((c.GetKnown b s2).2).slop) ∧
      ((c.MaybeGC).count ≤ (c.MaybeGC).limit + (c.MaybeGC).slop) ∧
      (∀ b s2 r, ¬ c.HasKey b s2 →
        (c.Remember b s2 r).count
          ≤ (c.Remember b s2 r).limit + (c.Remember b s2 r).slop)) ∧
    (c.limit + c.slop < c.count → (c.MaybeGC).count ≤ c.limit) := by
  constructor
  · intro hinv
    refine ⟨?_, ?_, ?_, ?_⟩
    · intro l s2
      exact Nat.zero_le _
    · intro b s2
      have hf := StateCache.getKnown_fields c b s2
      rw [hf.1, hf.2.1, hf.2.2]
      exact hinv
    · rw [StateCache.maybeGC_noop c hinv]
      exact hinv
    · intro b s2 r hfresh
      have hf := StateCache.remember_fields c b s2 r
      rw [hf.1, hf.2]
      exact StateCache.remember_count_bound c b s2 r hwf hpos hfresh hinv
  · intro hgc
    exact (StateCache.maybeGC_spec c hwf.1 hwf.2.1 hpos hgc).2.1.le

/-- Witness for C5 at a concrete overflowing cache. -/
theorem c5_cache_bound_witness :
    ((⟨[⟨0, [0], 0, [0]⟩, ⟨1, [1], 1, [1]⟩, ⟨2, [2], 2, [2]⟩],
        1, 3, 3, 0, 0, 0⟩ : StateCache).MaybeGC).count ≤ 1 :=
  (c5_cache_bound
    ⟨[⟨0, [0], 0, [0]⟩, ⟨1, [1], 1, [1]⟩, ⟨2, [2], 2, [2]⟩], 1, 3, 3, 0, 0, 0⟩
    ⟨by decide, by decide, by decide, by decide⟩ (by decide)).2 (by decide)

/-- C6 amended: on a well-formed cache, `count` equals the number of
stored entries after `Resize`, `GetKnown`, `MaybeGC`, and after every
`Remember` whose key is not already present (the only kind issued by
`CachingStep`, which calls `Remember` only after a `GetKnown` miss); a
`Remember` with an already-present key increments `count` without
inserting and breaks the equality. -/
theorem c6_count_accuracy_amended (c : StateCache) (hwf : c.WF) :
    (∀ l s2, (c.Resize l s2).count = (c.Resize l s2).table.length) ∧
    (∀ b s2, ((c.GetKnown b s2).2).count = ((c.GetKnown b s2).2).table.length) ∧
    ((c.MaybeGC).count = (c.MaybeGC).table.length) ∧
    (∀ b s2 r, ¬ c.HasKey b s2 →
      (c.Remember b s2 r).count = (c.Remember b s2 r).table.length) := by
  refine ⟨?_, ?_, ?_, ?_⟩
  · intro l s2
    rfl
  · intro b s2
    exact (StateCache.wf_getKnown c b s2 hwf).1
  · exact StateCache.maybeGC_count_len c hwf.1
  · intro b s2 r hfresh
    exact (StateCache.wf_remember_fresh c b s2 r hwf hfresh).1

/-- Witness for the amended C6 at a freshly resized cache. -/
theorem c6_count_accuracy_amended_witness :
    ((StateCache.init.Resize 10 10).MaybeGC).count
      = ((StateCache.init.Resize 10 10).MaybeGC).table.length :=
  (c6_count_accuracy_amended (StateCache.init.Resize 10 10)
    ⟨by decide, by decide, by decide, by decide⟩).2.2.1

/-- C10: sequence-number uniqueness.  On a well-formed cache the live
sequence numbers are pairwise distinct and strictly below `next_seq`,
and this invariant is preserved by `Resize`, by `GetKnown` (which stamps
the hit entry with `next_seq` and increments it), by `MaybeGC`, and by
every `Remember` — even one whose key is already present, since the
stamp is burnt whether or not the `emplace` inserts. -/
theorem c10_seq_uniqueness (c : StateCache) (hwf : c.WF) :
    c.SeqInv ∧
    (∀ l s2, (c.Resize l s2).SeqInv) ∧
    (∀ b s2, ((c.GetKnown b s2).2).SeqInv) ∧
    (c.MaybeGC).SeqInv ∧
    (∀ b s2 r, (c.Remember b s2 r).SeqInv) := by
  refine ⟨⟨hwf.2.1, hwf.2.2.1⟩, ?_, ?_, ?_, ?_⟩
  · intro l s2
    exact ⟨by simp [StateCache.Resize], by simp [StateCache.Resize]⟩
  · intro b s2
    have h := StateCache.wf_getKnown c b s2 hwf
    exact ⟨h.2.1, h.2.2.1⟩
  · exact StateCache.seqInv_maybeGC c ⟨hwf.2.1, hwf.2.2.1⟩
  · intro b s2 r
    exact StateCache.seqInv_remember c b s2 r hwf

/-- Witness for C10 at a concrete two-entry cache. -/
theorem c10_seq_uniqueness_witness :
    ((⟨[⟨0, [0], 0, [0]⟩, ⟨1, [1], 1, [1]⟩], 10, 2, 2, 10, 0, 0⟩ : StateCache).Remember
      0 [0] [9]).SeqInv :=
  (c10_seq_uniqueness ⟨[⟨0, [0], 0, [0]⟩, ⟨1, [1], 1, [1]⟩], 10, 2, 2, 10, 0, 0⟩
    ⟨by decide, by decide, by decide, by decide⟩).2.2.2.2 0 [0] [9]

namespace EmulatorLibretro

/-- On a cache miss, `CachingStep` advances the machine with the core
and remembers the transition (the miss counter having been bumped by
the failed lookup). -/
theorem cachingStep_miss_eq (step : Byte → List Byte → List Byte) (b : Byte)
    (m : List Byte) (c : StateCache) (h : ¬ c.HasKey b m) :
    CachingStep step b ⟨some m, some c⟩
      = ⟨some (step b m),
         some (({ c with misses := c.misses + 1 } : StateCache).Remember b m (step b m))⟩ := by
  have hgk := StateCache.getKnown_miss c b m h
  simp only [CachingStep, SaveUncompressed, hgk, Step]

/-- On a cache hit, `CachingStep` loads the stored post-state. -/
theorem cachingStep_hit_eq (step : Byte → List Byte → List Byte) (b : Byte)
    (m : List Byte) (c : StateCache) (e : CacheEntry)
    (hfind : c.table.find? (keyMatches b m) = some e) (hne : e.post ≠ []) :
    CachingStep step b ⟨some m, some c⟩
      = ⟨some e.post, some ((c.GetKnown b m).2)⟩ := by
  have hgk : c.GetKnown b m = (some e.post, (c.GetKnown b m).2) := by
    rw [StateCache.GetKnown.eq_def, hfind]
  simp only [CachingStep, SaveUncompressed]
  rw [hgk]
  simp [LoadUncompressed, hne]

end EmulatorLibretro

namespace EmulatorLibretro

/-- One `CachingStep` on a loaded machine with a well-formed, consistent
cache lands the machine exactly on the core's step result, hit or miss,
and keeps the cache well-formed and consistent. -/
theorem cachingStep_core (step : Byte → List Byte → List Byte)
    (hstep : ∀ b2 w, step b2 w ≠ []) (b : Byte) (m : List Byte)
    (c : StateCache) (hwf : c.WF) (hcons : c.Consistent step) :
    ∃ c2, CachingStep step b ⟨some m, some c⟩ = ⟨some (step b m), some c2⟩ ∧
      c2.WF ∧ c2.Consistent step ∧ c2.limit = c.limit ∧ c2.slop = c.slop ∧
      c2.count ≤ c.count + 1 := by
  by_cases hk : c.HasKey b m
  · obtain ⟨e, hfind, hmem, hib, hpre, heq⟩ := StateCache.getKnown_hit c b m hk
    have hpost : e.post = step b m := by rw [hcons e hmem, hib, hpre]
    have hne : e.post ≠ [] := by rw [hpost]; exact hstep b m
    refine ⟨(c.GetKnown b m).2, ?_, ?_, ?_, ?_, ?_, ?_⟩
    · rw [cachingStep_hit_eq step b m c e hfind hne, hpost]
    · exact StateCache.wf_getKnown c b m hwf
    · exact StateCache.consistent_getKnown step c b m hcons
    · exact (StateCache.getKnown_fields c b m).2.1
    · exact (StateCache.getKnown_fields c b m).2.2
    · rw [(StateCache.getKnown_fields c b m).1]
      omega
  · refine ⟨({ c with misses := c.misses + 1 } : StateCache).Remember b m (step b m),
      cachingStep_miss_eq step b m c hk, ?_, ?_, ?_, ?_, ?_⟩
    · exact StateCache.wf_remember_fresh _ b m _ hwf hk
    · exact StateCache.consistent_remember step _ b m _ hcons rfl
    · exact (StateCache.remember_fields _ b m _).1
    · exact (StateCache.remember_fields _ b m _).2
    · exact StateCache.remember_count_le _ b m _

/-- `cachingStep_core` strengthened for runs that stay below the soft
bound: the step's key is recorded, no present key is lost, and the
count grows by at most one. -/
theorem cachingStep_noGC (step : Byte → List Byte → List Byte)
    (hstep : ∀ b2 w, step b2 w ≠ []) (b : Byte) (m : List Byte)
    (c : StateCache) (hwf : c.WF) (hcons : c.Consistent step)
    (hroom : c.count + 1 ≤ c.limit + c.slop) :
    ∃ c2, CachingStep step b ⟨some m, some c⟩ = ⟨some (step b m), some c2⟩ ∧
      c2.WF ∧ c2.Consistent step ∧ c2.limit = c.limit ∧ c2.slop = c.slop ∧
      c2.count ≤ c.count + 1 ∧ c2.HasKey b m ∧
      (∀ x y, c.HasKey x y → c2.HasKey x y) := by
  by_cases hk : c.HasKey b m
  · obtain ⟨e, hfind, hmem, hib, hpre, heq⟩ := StateCache.getKnown_hit c b m hk
    have hpost : e.post = step b m := by rw [hcons e hmem, hib, hpre]
    have hne : e.post ≠ [] := by rw [hpost]; exact hstep b m
    refine ⟨(c.GetKnown b m).2, ?_, ?_, ?_, ?_, ?_, ?_, ?_, ?_⟩
    · rw [cachingStep_hit_eq step b m c e hfind hne, hpost]
    · exact StateCache.wf_getKnown c b m hwf
    · exact StateCache.consistent_getKnown step c b m hcons
    · exact (StateCache.getKnown_fields c b m).2.1
    · exact (StateCache.getKnown_fields c b m).2.2
    · rw [(StateCache.getKnown_fields c b m).1]
      omega
    · exact StateCache.getKnown_hasKey c b m b m hk
    · exact fun x y h => StateCache.getKnown_hasKey c b m x y h
  · have hng := StateCache.remember_fresh_noGC
      ({ c with misses := c.misses + 1 } : StateCache) b m (step b m) hk hroom
    refine ⟨({ c with misses := c.misses + 1 } : StateCache).Remember b m (step b m),
      cachingStep_miss_eq step b m c hk, ?_, ?_, ?_, ?_, ?_, ?_, ?_⟩
    · exact StateCache.wf_remember_fresh _ b m _ hwf hk
    · exact StateCache.consistent_remember step _ b m _ hcons rfl
    · exact (StateCache.remember_fields _ b m _).1
    · exact (StateCache.remember_fields _ b m _).2
    · exact StateCache.remember_count_le _ b m _
    · rw [hng]
      exact ⟨⟨b, m, c.next_seq, step b m⟩,
        List.mem_append.mpr (Or.inr (List.mem_singleton.mpr rfl)), rfl, rfl⟩
    · intro x y h
      rw [hng]
      obtain ⟨e, he, h1, h2⟩ := h
      exact ⟨e, List.mem_append.mpr (Or.inl he), h1, h2⟩

/-- On a hit (key present), `CachingStep` bumps the hit counter, leaves
the miss counter alone, and loses no key. -/
theorem cachingStep_hitrun (step : Byte → List Byte → List Byte)
    (hstep : ∀ b2 w, step b2 w ≠ []) (b : Byte) (m : List Byte)
    (c : StateCache) (hwf : c.WF) (hcons : c.Consistent step)
    (hk : c.HasKey b m) :
    ∃ c2, CachingStep step b ⟨some m, some c⟩ = ⟨some (step b m), some c2⟩ ∧
      c2.WF ∧ c2.Consistent step ∧ c2.hits = c.hits + 1 ∧ c2.misses = c.misses ∧
      (∀ x y, c.HasKey x y → c2.HasKey x y) := by
  obtain ⟨e, hfind, hmem, hib, hpre, heq⟩ := StateCache.getKnown_hit c b m hk
  have hpost : e.post = step b m := by rw [hcons e hmem, hib, hpre]
  have hne : e.post ≠ [] := by rw [hpost]; exact hstep b m
  have h2 := congrArg Prod.snd heq
  refine ⟨(c.GetKnown b m).2, ?_, ?_, ?_, ?_, ?_, ?_⟩
  · rw [cachingStep_hit_eq step b m c e hfind hne, hpost]
  · exact StateCache.wf_getKnown c b m hwf
  · exact StateCache.consistent_getKnown step c b m hcons
  · rw [h2]
  · rw [h2]
  · exact fun x y h => StateCache.getKnown_hasKey c b m x y h

/-- `runCaching` unfolding: empty run. -/
theorem runCaching_nil (step : Byte → List Byte → List Byte) (e : Emu) :
    runCaching step [] e = e := rfl

/-- `runCaching` unfolding: one more step. -/
theorem runCaching_cons (step : Byte → List Byte → List Byte) (b : Byte)
    (rest : List Byte) (e : Emu) :
    runCaching step (b :: rest) e = runCaching step rest (CachingStep step b e) := rfl

/-- `runStep` unfolding: one more step. -/
theorem runStep_cons (step : Byte → List Byte → List Byte) (m : List Byte)
    (b : Byte) (rest : List Byte) :
    runStep step m (b :: rest) = runStep step (step b m) rest := rfl

/-- A run of `CachingStep`s from a well-formed, consistent cache tracks
the plain-step run exactly and preserves well-formedness and
consistency. -/
theorem runCaching_core (step : Byte → List Byte → List Byte)
    (hstep : ∀ b2 w, step b2 w ≠ []) :
    ∀ (inputs m : List Byte) (c : StateCache), c.WF → c.Consistent step →
    ∃ c2, runCaching step inputs ⟨some m, some c⟩
        = ⟨some (runStep step m inputs), some c2⟩ ∧
      c2.WF ∧ c2.Consistent step ∧ c2.limit = c.limit ∧ c2.slop = c.slop ∧
      c2.count ≤ c.count + inputs.length := by
  intro inputs
  induction inputs with
  | nil =>
      intro m c hwf hcons
      exact ⟨c, rfl, hwf, hcons, rfl, rfl, by omega⟩
  | cons b rest ih =>
      intro m c hwf hcons
      obtain ⟨c1, heq1, hwf1, hcons1, hlim1, hslop1, hcount1⟩ :=
        cachingStep_core step hstep b m c hwf hcons
      obtain ⟨c2, heq2, hwf2, hcons2, hlim2, hslop2, hcount2⟩ :=
        ih (step b m) c1 hwf1 hcons1
      refine ⟨c2, ?_, hwf2, hcons2, hlim2.trans hlim1, hslop2.trans hslop1, ?_⟩
      · rw [runCaching_cons, heq1, heq2, runStep_cons]
      · simp only [List.length_cons]
        omega

/-- A run that fits below the soft bound also records every key it
visited and loses none it had. -/
theorem runCaching_noGC (step : Byte → List Byte → List Byte)
    (hstep : ∀ b2 w, step b2 w ≠ []) :
    ∀ (inputs m : List Byte) (c : StateCache), c.WF → c.Consistent step →
    c.count + inputs.length ≤ c.limit + c.slop →
    ∃ c2, runCaching step inputs ⟨some m, some c⟩
        = ⟨some (runStep step m inputs), some c2⟩ ∧
      c2.WF ∧ c2.Consistent step ∧ c2.limit = c.limit ∧ c2.slop = c.slop ∧
      c2.count ≤ c.count + inputs.length ∧
      StateCache.KeysSeen step c2 m inputs ∧
      (∀ x y, c.HasKey x y → c2.HasKey x y) := by
  intro inputs
  induction inputs with
  | nil =>
      intro m c hwf hcons _
      exact ⟨c, rfl, hwf, hcons, rfl, rfl, by omega, trivial, fun x y h => h⟩
  | cons b rest ih =>
      intro m c hwf hcons hroom
      rw [List.length_cons] at hroom
      obtain ⟨c1, heq1, hwf1, hcons1, hlim1, hslop1, hcount1, hkey1, hmono1⟩ :=
        cachingStep_noGC step hstep b m c hwf hcons (by omega)
      obtain ⟨c2, heq2, hwf2, hcons2, hlim2, hslop2, hcount2, hseen2, hmono2⟩ :=
        ih (step b m) c1 hwf1 hcons1 (by rw [hlim1, hslop1]; omega)
      refine ⟨c2, ?_, hwf2, hcons2, hlim2.trans hlim1, hslop2.trans hslop1, ?_, ?_, ?_⟩
      · rw [runCaching_cons, heq1, heq2, runStep_cons]
      · simp only [List.length_cons]
        omega
      · exact ⟨hmono2 b m hkey1, hseen2⟩
      · exact fun x y h => hmono2 x y (hmono1 x y h)

/-- Key presence for a whole replay is monotone under key-preserving
cache transformations. -/
theorem keysSeen_mono (step : Byte → List Byte → List Byte)
    (c c2 : StateCache) (hmono : ∀ x y, c.HasKey x y → c2.HasKey x y) :
    ∀ (inputs m : List Byte),
      StateCache.KeysSeen step c m inputs → StateCache.KeysSeen step c2 m inputs := by
  intro inputs
  induction inputs with
  | nil => intro m _; trivial
  | cons b rest ih => intro m h; exact ⟨hmono b m h.1, ih (step b m) h.2⟩

/-- A replay whose every lookup key is present is all hits: the machine
follows the plain-step run, the hit counter increases by the run length,
and the miss counter does not move. -/
theorem runCaching_replay (step : Byte → List Byte → List Byte)
    (hstep : ∀ b2 w, step b2 w ≠ []) :
    ∀ (inputs m : List Byte) (c : StateCache), c.WF → c.Consistent step →
    StateCache.KeysSeen step c m inputs →
    ∃ c2, runCaching step inputs ⟨some m, some c⟩
        = ⟨some (runStep step m inputs), some c2⟩ ∧
      c2.hits = c.hits + inputs.length ∧ c2.misses = c.misses := by
  intro inputs
  induction inputs with
  | nil =>
      intro m c _ _ _
      exact ⟨c, rfl, by simp, rfl⟩
  | cons b rest ih =>
      intro m c hwf hcons hseen
      obtain ⟨c1, heq1, hwf1, hcons1, hhits1, hmiss1, hmono1⟩ :=
        cachingStep_hitrun step hstep b m c hwf hcons hseen.1
      obtain ⟨c2, heq2, hhits2, hmiss2⟩ :=
        ih (step b m) c1 hwf1 hcons1 (keysSeen_mono step c c1 hmono1 rest (step b m) hseen.2)
      refine ⟨c2, ?_, ?_, ?_⟩
      · rw [runCaching_cons, heq1, heq2, runStep_cons]
      · rw [hhits2, hhits1]
        simp only [List.length_cons]
        omega
      · rw [hmiss2, hmiss1]

end EmulatorLibretro

/-- C1: cache transparency of `CachingStep`.  With a deterministic core
step on serialized states that never serializes to the empty buffer,
and a well-formed cache consistent with that step: a single
`CachingStep` leaves the machine exactly where `Step` would, hit or
miss; a whole run of `CachingStep`s tracks the plain-step run; and when
the run fits below the cache's soft bound, replaying the same inputs
from the restored pre-state yields the same final machine state and RAM
with every replayed step a cache hit (hits grow by the run length,
misses not at all). -/
theorem c1_caching_transparency (step : Byte → List Byte → List Byte)
    (getMem : List Byte → List Byte) (hstep : ∀ b w, step b w ≠ [])
    (m : List Byte) (c : StateCache) (hwf : c.WF) (hcons : c.Consistent step)
    (inputs : List Byte) :
    (∀ b, (EmulatorLibretro.CachingStep step b ⟨some m, some c⟩).wrapper
      = some (step b m)) ∧
    (EmulatorLibretro.runCaching step inputs ⟨some m, some c⟩).wrapper
      = some (EmulatorLibretro.runStep step m inputs) ∧
    (c.count + inputs.length ≤ c.limit + c.slop →
      ∃ c1, (EmulatorLibretro.runCaching step inputs ⟨some m, some c⟩).cache = some c1 ∧
        (EmulatorLibretro.runCaching step inputs ⟨some m, some c1⟩).wrapper
          = some (EmulatorLibretro.runStep step m inputs) ∧
        EmulatorLibretro.GetMemory getMem
            (EmulatorLibretro.runCaching step inputs ⟨some m, some c1⟩)
          = EmulatorLibretro.GetMemory getMem
            (EmulatorLibretro.runCaching step inputs ⟨some m, some c⟩) ∧
        ∃ c2, (EmulatorLibretro.runCaching step inputs ⟨some m, some c1⟩).cache = some c2 ∧
          c2.hits = c1.hits + inputs.length ∧ c2.misses = c1.misses) := by
  refine ⟨?_, ?_, ?_⟩
  · intro b
    obtain ⟨c1, heq, -⟩ := EmulatorLibretro.cachingStep_core step hstep b m c hwf hcons
    rw [heq]
  · obtain ⟨c1, heq, -⟩ := EmulatorLibretro.runCaching_core step hstep inputs m c hwf hcons
    rw [heq]
  · intro hroom
    obtain ⟨c1, heq1, hwf1, hcons1, -, -, -, hseen1, -⟩ :=
      EmulatorLibretro.runCaching_noGC step hstep inputs m c hwf hcons hroom
    obtain ⟨c2, heq2, hhits2, hmiss2⟩ :=
      EmulatorLibretro.runCaching_replay step hstep inputs m c1 hwf1 hcons1 hseen1
    refine ⟨c1, by rw [heq1], ?_, ?_, c2, by rw [heq2], hhits2, hmiss2⟩
    · rw [heq2]
    · rw [heq2, heq1]
      rfl

/-- Witness for C1: a two-step run and its all-hit replay from a fresh
resized cache on a concrete prepending core. -/
theorem c1_caching_transparency_witness :
    ∃ c1, (EmulatorLibretro.runCaching (fun b w => b :: w) [0, 0]
        ⟨some [], some (StateCache.init.Resize 5 5)⟩).cache = some c1 ∧
      (EmulatorLibretro.runCaching (fun b w => b :: w) [0, 0] ⟨some [], some c1⟩).wrapper
        = some (EmulatorLibretro.runStep (fun b w => b :: w) [] [0, 0]) ∧
      EmulatorLibretro.GetMemory id
          (EmulatorLibretro.runCaching (fun b w => b :: w) [0, 0] ⟨some [], some c1⟩)
        = EmulatorLibretro.GetMemory id
          (EmulatorLibretro.runCaching (fun b w => b :: w) [0, 0]
            ⟨some [], some (StateCache.init.Resize 5 5)⟩) ∧
      ∃ c2, (EmulatorLibretro.runCaching (fun b w => b :: w) [0, 0]
          ⟨some [], some c1⟩).cache = some c2 ∧
        c2.hits = c1.hits + [0, 0].length ∧ c2.misses = c1.misses :=
  (c1_caching_transparency (fun b w => b :: w) id (fun b w => List.cons_ne_nil b w)
    [] (StateCache.init.Resize 5 5) ⟨by decide, by decide, by decide, by decide⟩
    (fun e he => absurd he (List.not_mem_nil e)) [0, 0]).2.2 (by decide)
